import Mathlib

/-!
Verification of the plane/obstacle post-processing stage of
polylidar-realsense: a shallow embedding of
`surfacedetector/utility/helper_planefiltering.py`
(`filter_planes_and_holes`) over exact rational coordinates.

The repository function orchestrates external geometry primitives
(shapely `simplify`/`buffer`/`area`, polylidar `recover_3d`): those
primitives are parameters of the embedding (`GeomOps`), while the
control flow, threshold checks, list building and the threading of the
mutable local `z_value` are translated line by line from the source.
Fallible numpy indexing (`shell_coords[0][2]`, `hole_lr.coords[0][2]`)
is modelled in the `Except` monad, matching the IndexError a Python
run would raise.
-/

set_option maxHeartbeats 1000000

namespace SurfaceDetector

/-- A coordinate vector of one vertex: `[x, y]` in flattened 2-D form or
`[x, y, z]` in 3-D form, modelling one row of a numpy coordinate array. -/
abbrev Pt := List ℚ

/-- A shapely-style polygon: an exterior ring (`shell`) and interior rings
(`holes`), each an ordered list of coordinate vectors. -/
structure Poly where
  shell : List Pt
  holes : List (List Pt)
deriving DecidableEq, Repr

/-- A shapely geometry that is either a single polygon or a multi-polygon,
as produced by buffering operations (`geom_type == 'MultiPolygon'`). -/
inductive Geom where
  | poly (p : Poly)
  | multi (ps : List Poly)
deriving DecidableEq, Repr

/-- A raw polygon from polylidar: point-cloud index sequences for the
shell and the holes (`poly.shell`, `poly.holes`). -/
structure PolygonBoundary where
  shell : List ℕ
  holes : List (List ℕ)
deriving DecidableEq, Repr

/-- The external geometric primitives the source delegates to the shapely
and polylidar libraries (`simplify`, `buffer`, `.area`, `recover_3d`).
They are parameters of the embedding: the repository code only
orchestrates them, so every theorem below holds for arbitrary `GeomOps`. -/
structure GeomOps where
  simplifyFn : ℚ → Geom → Geom
  bufferFn : ℚ → Geom → Geom
  areaFn : Poly → ℚ
  recover3dFn : Poly → List Pt → ℚ → Poly

/-- The `filter` sub-dictionary of `config_pp`: all metric thresholds. -/
structure FilterCfg where
  plane_area_min : ℚ
  hole_area_min : ℚ
  hole_area_max : ℚ
  hole_vertices_min : ℤ
deriving DecidableEq, Repr

/-- The post-processing configuration dictionary `config_pp`. -/
structure Config where
  filter : FilterCfg
  simplify : ℚ
  positive_buffer : ℚ
  negative_buffer : ℚ
deriving DecidableEq, Repr

/-- A 3x3 rotation matrix with rational entries, modelling the scipy
rotation `rm` acting on coordinate rows. -/
structure Mat3 where
  m11 : ℚ
  m12 : ℚ
  m13 : ℚ
  m21 : ℚ
  m22 : ℚ
  m23 : ℚ
  m31 : ℚ
  m32 : ℚ
  m33 : ℚ
deriving DecidableEq, Repr

/-- Apply the rotation to one 3-D coordinate row (`rm.apply` on one row).
Rows that are not 3-dimensional are passed through unchanged (scipy would
reject them; no theorem below depends on that branch). -/
def Mat3.applyPt (m : Mat3) : Pt → Pt
  | [x, y, z] =>
      [m.m11 * x + m.m12 * y + m.m13 * z,
       m.m21 * x + m.m22 * y + m.m23 * z,
       m.m31 * x + m.m32 * y + m.m33 * z]
  | p => p

/-- Apply the rotation to every row of a coordinate array (`rm.apply`). -/
def Mat3.applyPts (m : Mat3) (ps : List Pt) : List Pt :=
  ps.map m.applyPt

/-- Matrix transpose; for an orthonormal rotation matrix this is the
matrix of the inverse rotation `rm.inv()`. -/
def Mat3.transpose (m : Mat3) : Mat3 :=
  ⟨m.m11, m.m21, m.m31, m.m12, m.m22, m.m32, m.m13, m.m23, m.m33⟩

/-- Matrix product. -/
def Mat3.mul (a b : Mat3) : Mat3 :=
  ⟨a.m11 * b.m11 + a.m12 * b.m21 + a.m13 * b.m31,
   a.m11 * b.m12 + a.m12 * b.m22 + a.m13 * b.m32,
   a.m11 * b.m13 + a.m12 * b.m23 + a.m13 * b.m33,
   a.m21 * b.m11 + a.m22 * b.m21 + a.m23 * b.m31,
   a.m21 * b.m12 + a.m22 * b.m22 + a.m23 * b.m32,
   a.m21 * b.m13 + a.m22 * b.m23 + a.m23 * b.m33,
   a.m31 * b.m11 + a.m32 * b.m21 + a.m33 * b.m31,
   a.m31 * b.m12 + a.m32 * b.m22 + a.m33 * b.m32,
   a.m31 * b.m13 + a.m32 * b.m23 + a.m33 * b.m33⟩

/-- The identity rotation (module-level `IDENTITY = R.identity()`). -/
def Mat3.identity : Mat3 := ⟨1, 0, 0, 0, 1, 0, 0, 0, 1⟩

/-- polylidar's `get_points(point_idxs, points)`: numpy fancy indexing
`points[idxs]`, resolving each point-cloud index to its coordinate row. -/
def get_points (idxs : List ℕ) (points : List Pt) : List Pt :=
  idxs.map (fun i => points.getD i [])

/-- polylidar's `create_kd_tree(shell_coords, hole_coords)`: the point set
the spatial index is built over (union of shell and hole coordinates). -/
def create_kd_tree (shell_coords : List Pt) (hole_coords : List (List Pt)) :
    List Pt :=
  shell_coords ++ hole_coords.flatten

/-- The mutable local state of one `filter_planes_and_holes` call: the
accumulating `planes`, `obstacles` and `planes_indices` lists, plus the
local variable `z_value` (which the source mutates inside the hole loop). -/
structure St where
  planes : List (Poly × ℚ)
  obstacles : List (Poly × ℚ)
  planes_indices : List ℕ
  z_value : ℚ
deriving DecidableEq, Repr

/-- The hole loop of `filter_planes_and_holes` (source lines 157-165):
for each interior ring, admit it as an obstacle when its coordinate count
exceeds `hole_vertices.min` and (`hole_area.min <= 0.0 or area >=
hole_area.min and area < hole_area.max`), recording the ring's first
vertex z-coordinate and assigning it to the local `z_value`. -/
def processHoles (pf : FilterCfg) (ops : GeomOps) :
    List (List Pt) → List (Poly × ℚ) → ℚ →
      Except String (List (Poly × ℚ) × ℚ)
  | [], obstacles, z => .ok (obstacles, z)
  | hole_lr :: rest, obstacles, z =>
    if pf.hole_vertices_min < (hole_lr.length : ℤ) then
      if pf.hole_area_min ≤ 0 ∨
          (ops.areaFn ⟨hole_lr, []⟩ ≥ pf.hole_area_min ∧
           ops.areaFn ⟨hole_lr, []⟩ < pf.hole_area_max) then
        match hole_lr.head? with
        | none => .error "IndexError"
        | some p0 =>
          match p0[2]? with
          | none => .error "IndexError"
          | some z2 =>
              processHoles pf ops rest (obstacles ++ [(⟨hole_lr, []⟩, z2)]) z2
      else processHoles pf ops rest obstacles z
    else processHoles pf ops rest obstacles z

/-- The number of coordinate dimensions of the exterior ring:
`np.asarray(poly_shape.exterior).shape[1]` (for a nonempty rectangular
coordinate array). -/
def dimOf (p : Poly) : ℕ := (p.shell.headD []).length

/-- The conditional 3-D recovery applied to one candidate region (source
lines 136-148), with the operator precedence of the Python expression
`config_pp['negative_buffer'] or config_pp['simplify'] or
config_pp['positive_buffer'] and dim < 3`. -/
def recoveredRegion (cfg : Config) (ops : GeomOps) (shell_coords : List Pt)
    (hole_coords : List (List Pt)) (z_value : ℚ) (poly_shape : Poly) : Poly :=
  if cfg.negative_buffer ≠ 0 ∨ cfg.simplify ≠ 0 ∨
      (cfg.positive_buffer ≠ 0 ∧ dimOf poly_shape < 3) then
    ops.recover3dFn poly_shape (create_kd_tree shell_coords hole_coords) z_value
  else poly_shape

/-- Processing of one candidate region of `all_poly_shapes` (source lines
131-165): the per-region area check, conditional 3-D recovery, the plane
append (exterior only, paired with the current `z_value`), the index
append, and the hole loop. -/
def processRegion (cfg : Config) (ops : GeomOps) (shell_coords : List Pt)
    (hole_coords : List (List Pt)) (poly_index : ℕ) (st : St)
    (poly_shape : Poly) : Except String St :=
  if cfg.filter.plane_area_min ≤ 0 ∨
      ops.areaFn poly_shape ≥ cfg.filter.plane_area_min then
    match processHoles cfg.filter ops
        (recoveredRegion cfg ops shell_coords hole_coords st.z_value poly_shape).holes
        st.obstacles st.z_value with
    | .error e => .error e
    | .ok (obs, z) =>
        .ok ⟨st.planes ++
              [(⟨(recoveredRegion cfg ops shell_coords hole_coords st.z_value
                    poly_shape).shell, []⟩, st.z_value)],
             obs, st.planes_indices ++ [poly_index], z⟩
  else .ok st

/-- The shell coordinates of one raw polygon after index resolution and
optional rotation (source lines 69-74). -/
def initialShellCoords (points : List Pt) (rm : Option Mat3)
    (poly : PolygonBoundary) : List Pt :=
  match rm with
  | some m => m.applyPts (get_points poly.shell points)
  | none => get_points poly.shell points

/-- The hole coordinates of one raw polygon after index resolution and
optional rotation (source lines 69-74). -/
def initialHoleCoords (points : List Pt) (rm : Option Mat3)
    (poly : PolygonBoundary) : List (List Pt) :=
  match rm with
  | some m => poly.holes.map (fun h => m.applyPts (get_points h points))
  | none => poly.holes.map (fun h => get_points h points)

/-- The polygon normalization chain (source lines 93-120): optional
simplify, positive buffer, negative buffer, simplify again, then the
multi-polygon split into the candidate list `all_poly_shapes`. -/
def normalizeGeom (cfg : Config) (ops : GeomOps) (poly_shape : Poly) :
    List Poly :=
  let g : Geom := Geom.poly poly_shape
  let g := if cfg.simplify ≠ 0 then ops.simplifyFn cfg.simplify g else g
  let g := if cfg.positive_buffer ≠ 0 then ops.bufferFn cfg.positive_buffer g else g
  let g := if cfg.negative_buffer ≠ 0 then ops.bufferFn (-cfg.negative_buffer) g else g
  let g := if cfg.simplify ≠ 0 then ops.simplifyFn cfg.simplify g else g
  match g with
  | Geom.multi ps => ps
  | Geom.poly p => [p]

/-- The working polygon `Polygon(shell=shell_coords, holes=hole_coords)`
built from one raw polygon (source line 76). -/
def initialShape (points : List Pt) (rm : Option Mat3)
    (poly : PolygonBoundary) : Poly :=
  ⟨initialShellCoords points rm poly, initialHoleCoords points rm poly⟩

/-- One iteration of the main loop of `filter_planes_and_holes` (source
lines 67-165): coordinate resolution, the early area check
(`if post_filter['plane_area']['min'] and area < ...: continue`), the
read of `z_value = shell_coords[0][2]`, normalization, and the fold over
the candidate regions. -/
def processPolygon (cfg : Config) (ops : GeomOps) (points : List Pt)
    (rm : Option Mat3) (st : St) (pair : ℕ × PolygonBoundary) :
    Except String St :=
  if cfg.filter.plane_area_min ≠ 0 ∧
      ops.areaFn (initialShape points rm pair.2) < cfg.filter.plane_area_min then
    .ok st
  else
    match (initialShellCoords points rm pair.2).head? with
    | none => .error "IndexError"
    | some p0 =>
      match p0[2]? with
      | none => .error "IndexError"
      | some z_value =>
        (normalizeGeom cfg ops (initialShape points rm pair.2)).foldlM
          (processRegion cfg ops (initialShellCoords points rm pair.2)
            (initialHoleCoords points rm pair.2) pair.1)
          { st with z_value := z_value }

/-- The epilogue of `filter_planes_and_holes` (source lines 166-180): when
a rotation was supplied, every plane and obstacle polygon is rebuilt from
its exterior ring mapped through the inverse rotation; otherwise the
accumulated lists are returned as they are. -/
def invertOutput (rm : Option Mat3) (st : St) :
    List (Poly × ℚ) × List (Poly × ℚ) × List ℕ :=
  match rm with
  | none => (st.planes, st.obstacles, st.planes_indices)
  | some m =>
    (st.planes.map (fun pz =>
        (⟨(Mat3.transpose m).applyPts pz.1.shell, []⟩, pz.2)),
     st.obstacles.map (fun pz =>
        (⟨(Mat3.transpose m).applyPts pz.1.shell, []⟩, pz.2)),
     st.planes_indices)

/-- The embedding of `filter_planes_and_holes(polygons, points, config_pp,
rm)`: the main loop over `enumerate(polygons)` followed by the optional
rotation inversion of the collected planes and obstacles. -/
def filter_planes_and_holes (ops : GeomOps) (polygons : List PolygonBoundary)
    (points : List Pt) (cfg : Config) (rm : Option Mat3) :
    Except String (List (Poly × ℚ) × List (Poly × ℚ) × List ℕ) :=
  match polygons.enum.foldlM (processPolygon cfg ops points rm) ⟨[], [], [], 0⟩ with
  | .error e => .error e
  | .ok st => .ok (invertOutput rm st)

/-- The spec's obstacle-admission condition for one hole of an accepted
region: coordinate count strictly greater than `hole_vertices.min` and
(`hole_area.min <= 0` or `hole_area.min <= area(hole) < hole_area.max`). -/
def holeAdmitted (pf : FilterCfg) (ops : GeomOps) (h : List Pt) : Prop :=
  pf.hole_vertices_min < (h.length : ℤ) ∧
    (pf.hole_area_min ≤ 0 ∨
      (pf.hole_area_min ≤ ops.areaFn ⟨h, []⟩ ∧ ops.areaFn ⟨h, []⟩ < pf.hole_area_max))

instance (pf : FilterCfg) (ops : GeomOps) (h : List Pt) :
    Decidable (holeAdmitted pf ops h) := by
  unfold holeAdmitted; infer_instance

/-- The obstacle record produced from an admitted hole: the hole as a
polygon, paired with the z-coordinate of its first vertex; `none` when
that coordinate does not exist (the IndexError case). -/
def obstacleRecord (h : List Pt) : Option (Poly × ℚ) :=
  match h.head? with
  | none => none
  | some p0 =>
    match p0[2]? with
    | none => none
    | some z2 => some (⟨h, []⟩, z2)

/-- The per-region acceptance test of the metric filter (source line 135):
`plane_area.min <= 0 or area >= plane_area.min`. -/
def regionAccepted (cfg : Config) (ops : GeomOps) (r : Poly) : Bool :=
  decide (cfg.filter.plane_area_min ≤ 0 ∨ ops.areaFn r ≥ cfg.filter.plane_area_min)

/-- How many candidate regions of one raw polygon survive filtering: zero
when the polygon is early-rejected, otherwise the number of normalized
regions passing the per-region area check. -/
def survivingRegionCount (cfg : Config) (ops : GeomOps) (points : List Pt)
    (rm : Option Mat3) (poly : PolygonBoundary) : ℕ :=
  if cfg.filter.plane_area_min ≠ 0 ∧
      ops.areaFn (initialShape points rm poly) < cfg.filter.plane_area_min then 0
  else (normalizeGeom cfg ops (initialShape points rm poly)).countP
    (regionAccepted cfg ops)

/-- Trivial concrete geometry primitives for concrete evaluations:
identity simplify and buffer, constant-zero area, identity recovery. -/
def opsTriv : GeomOps :=
  ⟨fun _ g => g, fun _ g => g, fun _ => 0, fun p _ _ => p⟩

/-- A concrete raw polygon list: one triangle over the point cloud. -/
def polysW : List PolygonBoundary := [⟨[0, 1, 2], []⟩]

/-- A concrete point cloud of three 3-D points at height 5. -/
def pointsW : List Pt := [[0, 0, 5], [1, 0, 5], [1, 1, 5]]

/-- A concrete configuration with all thresholds and operations disabled
(`plane_area.min = 0`, `hole_area = [0, 1)`, `hole_vertices.min = 0`). -/
def cfgW : Config := ⟨⟨0, 0, 1, 0⟩, 0, 0, 0⟩

/-- The output of the concrete run of `filter_planes_and_holes` with
`opsTriv`, `polysW`, `pointsW`, `cfgW`. -/
def resW : List (Poly × ℚ) × List (Poly × ℚ) × List ℕ :=
  ([(⟨[[0, 0, 5], [1, 0, 5], [1, 1, 5]], []⟩, 5)], [], [0])

/-- An empty starting state. -/
def stW : St := ⟨[], [], [], 0⟩

/-- A concrete filter configuration requiring more than one hole vertex. -/
def pfW : FilterCfg := ⟨0, 0, 1, 1⟩

/-- Two concrete interior rings: one with two vertices (admitted under
`pfW`), one with a single vertex (rejected by the vertex count). -/
def holesW : List (List Pt) := [[[9, 9, 99], [9, 8, 99]], [[4, 4, 4]]]

/-- The hole-loop output on `holesW` under `pfW`. -/
def resHW : List (Poly × ℚ) × ℚ :=
  ([(⟨[[9, 9, 99], [9, 8, 99]], []⟩, 99)], 99)

/-- A concrete configuration with a positive plane-area threshold. -/
def cfgPA : Config := ⟨⟨1, 0, 1, 0⟩, 0, 0, 0⟩

/-- Geometry primitives whose negative buffer splits any geometry into a
multi-polygon of two regions, the first of which carries one interior
ring at height 99; area is constantly 1 and recovery is the identity. -/
def opsSplit : GeomOps where
  simplifyFn := fun _ g => g
  bufferFn := fun _ _ => Geom.multi
    [⟨[[0, 0, 5], [1, 0, 5], [1, 1, 5]], [[[9, 9, 99], [9, 8, 99]]]⟩,
     ⟨[[2, 2, 5], [3, 2, 5], [3, 3, 5]], []⟩]
  areaFn := fun _ => 1
  recover3dFn := fun p _ _ => p

/-- A configuration enabling only the negative buffer. -/
def cfgNegBuf : Config := ⟨⟨0, 0, 1, 0⟩, 0, 0, 1⟩

/-- Geometry primitives whose 3-D recovery returns a marker polygon, so a
run's output reveals whether recovery was invoked. -/
def opsMarker : GeomOps where
  simplifyFn := fun _ g => g
  bufferFn := fun _ g => g
  areaFn := fun _ => 1
  recover3dFn := fun _ _ _ => ⟨[[7, 7, 7]], []⟩

/-- A configuration enabling only simplification. -/
def cfgSimplifyOnly : Config := ⟨⟨0, 0, 1, 0⟩, 2, 0, 0⟩

/-- A concrete orthonormal rotation matrix: rotation about the z-axis by
ninety degrees. -/
def rot90 : Mat3 := ⟨0, -1, 0, 1, 0, 0, 0, 0, 1⟩

/-- On a successful run, the hole loop appends exactly the admitted holes'
obstacle records, in order. -/
theorem processHoles_ok_obstacles (pf : FilterCfg) (ops : GeomOps) :
    ∀ (holes : List (List Pt)) (obs : List (Poly × ℚ)) (z : ℚ)
      (res : List (Poly × ℚ) × ℚ),
      processHoles pf ops holes obs z = Except.ok res →
      res.1 = obs ++ holes.filterMap
        (fun hl => if holeAdmitted pf ops hl then obstacleRecord hl else none) := by
  intro holes
  induction holes with
  | nil =>
    intro obs z res h
    simp only [processHoles] at h
    cases h
    simp
  | cons hl rest ih =>
    intro obs z res h
    simp only [processHoles] at h
    split at h
    next h1 =>
      split at h
      next h2 =>
        split at h
        next hh => simp at h
        next p0 hh =>
          split at h
          next hg => simp at h
          next z2 hg =>
            have hr := ih _ _ _ h
            have hadm : holeAdmitted pf ops hl := by
              unfold holeAdmitted
              exact ⟨h1, by simpa [ge_iff_le] using h2⟩
            rw [hr]
            simp [List.filterMap_cons, if_pos hadm, obstacleRecord, hh, hg]
      next h2 =>
        have hr := ih _ _ _ h
        have hadm : ¬ holeAdmitted pf ops hl := by
          unfold holeAdmitted
          intro hc
          exact h2 (by simpa [ge_iff_le] using hc.2)
        rw [hr]
        simp [List.filterMap_cons, if_neg hadm]
    next h1 =>
      have hr := ih _ _ _ h
      have hadm : ¬ holeAdmitted pf ops hl := by
        unfold holeAdmitted
        intro hc
        exact h1 hc.1
      rw [hr]
      simp [List.filterMap_cons, if_neg hadm]

/-- On a successful run, every admitted hole has a well-formed obstacle
record (a first vertex with a z-coordinate). -/
theorem processHoles_ok_isSome (pf : FilterCfg) (ops : GeomOps) :
    ∀ (holes : List (List Pt)) (obs : List (Poly × ℚ)) (z : ℚ)
      (res : List (Poly × ℚ) × ℚ),
      processHoles pf ops holes obs z = Except.ok res →
      ∀ hl ∈ holes, holeAdmitted pf ops hl → (obstacleRecord hl).isSome := by
  intro holes
  induction holes with
  | nil => intro obs z res _ hl hmem; simp at hmem
  | cons hl0 rest ih =>
    intro obs z res h hl hmem hadm
    simp only [processHoles] at h
    rcases List.mem_cons.mp hmem with rfl | hmem'
    · split at h
      next h1 =>
        split at h
        next h2 =>
          split at h
          next hh => simp at h
          next p0 hh =>
            split at h
            next hg => simp at h
            next z2 hg => simp [obstacleRecord, hh, hg]
        next h2 =>
          exact absurd (by simpa [ge_iff_le] using hadm.2) h2
      next h1 => exact absurd hadm.1 h1
    · split at h
      next h1 =>
        split at h
        next h2 =>
          split at h
          next hh => simp at h
          next p0 hh =>
            split at h
            next hg => simp at h
            next z2 hg => exact ih _ _ _ h hl hmem' hadm
        next h2 => exact ih _ _ _ h hl hmem' hadm
      next h1 => exact ih _ _ _ h hl hmem' hadm

/-- Every obstacle in the output of the hole loop was already present or
is one of the processed interior rings (as a hole-polygon). -/
theorem processHoles_ok_mem (pf : FilterCfg) (ops : GeomOps)
    (holes : List (List Pt)) (obs : List (Poly × ℚ)) (z : ℚ)
    (res : List (Poly × ℚ) × ℚ)
    (h : processHoles pf ops holes obs z = Except.ok res) :
    ∀ oz ∈ res.1, oz ∈ obs ∨ ∃ hl ∈ holes, oz.1 = ⟨hl, []⟩ := by
  intro oz hmem
  rw [processHoles_ok_obstacles pf ops holes obs z res h] at hmem
  rcases List.mem_append.mp hmem with hmem' | hmem'
  · exact Or.inl hmem'
  · right
    rcases List.mem_filterMap.mp hmem' with ⟨hl, hhl, hf⟩
    refine ⟨hl, hhl, ?_⟩
    by_cases hadm : holeAdmitted pf ops hl
    · rw [if_pos hadm] at hf
      unfold obstacleRecord at hf
      split at hf
      · simp at hf
      · split at hf
        · simp at hf
        · cases hf; rfl
    · rw [if_neg hadm] at hf
      simp at hf

/-- Case analysis of one region of `all_poly_shapes`: either the region
fails the per-region area check and the state is unchanged, or it passes
and exactly one plane (its recovered exterior, with the current `z_value`)
and one index are appended, with the hole loop updating the obstacles and
the `z_value`. -/
theorem processRegion_ok_cases (cfg : Config) (ops : GeomOps) (sc : List Pt)
    (hc : List (List Pt)) (i : ℕ) (st : St) (r : Poly) (st' : St)
    (h : processRegion cfg ops sc hc i st r = Except.ok st') :
    (regionAccepted cfg ops r = false ∧ st' = st) ∨
    (regionAccepted cfg ops r = true ∧ ∃ q z2,
      processHoles cfg.filter ops
          (recoveredRegion cfg ops sc hc st.z_value r).holes st.obstacles st.z_value
        = Except.ok (q, z2) ∧
      st' = ⟨st.planes ++
               [(⟨(recoveredRegion cfg ops sc hc st.z_value r).shell, []⟩,
                 st.z_value)],
             q, st.planes_indices ++ [i], z2⟩) := by
  unfold processRegion at h
  split at h
  next hacc =>
    right
    refine ⟨decide_eq_true hacc, ?_⟩
    split at h
    next e heq => simp at h
    next obs z2 heq =>
      injection h with h
      exact ⟨obs, z2, heq, h.symm⟩
  next hacc =>
    left
    injection h with h
    exact ⟨decide_eq_false hacc, h.symm⟩

/-- Reduction of a successful bind in the `Except` monad. -/
theorem except_bind_ok {α β : Type} (a : α) (f : α → Except String β) :
    (Except.ok a >>= f) = f a := rfl

/-- Reduction of a failed bind in the `Except` monad. -/
theorem except_bind_error {α β : Type} (e : String) (f : α → Except String β) :
    ((Except.error e : Except String α) >>= f) = Except.error e := rfl

/-- Folding the candidate regions of one polygon appends one plane and one
copy of the polygon's index per region that passes the area check. -/
theorem foldRegions_ok (cfg : Config) (ops : GeomOps) (sc : List Pt)
    (hc : List (List Pt)) (i : ℕ) :
    ∀ (rs : List Poly) (st st' : St),
      rs.foldlM (processRegion cfg ops sc hc i) st = Except.ok st' →
      st'.planes_indices = st.planes_indices ++
        List.replicate (rs.countP (regionAccepted cfg ops)) i ∧
      st'.planes.length = st.planes.length + rs.countP (regionAccepted cfg ops) := by
  intro rs
  induction rs with
  | nil =>
    intro st st' h
    simp only [List.foldlM_nil] at h
    have h' : Except.ok st = Except.ok st' := h
    injection h' with h'
    subst h'
    simp
  | cons r rest ih =>
    intro st st' h
    simp only [List.foldlM_cons] at h
    cases hr : processRegion cfg ops sc hc i st r with
    | error e => rw [hr, except_bind_error] at h; simp at h
    | ok st1 =>
      rw [hr, except_bind_ok] at h
      obtain ⟨h3, h4⟩ := ih st1 st' h
      rcases processRegion_ok_cases cfg ops sc hc i st r st1 hr with
        ⟨hacc, rfl⟩ | ⟨hacc, q, z2, _, rfl⟩
      · constructor
        · rw [h3, List.countP_cons, hacc]
          simp
        · rw [h4, List.countP_cons, hacc]
          simp
      · constructor
        · rw [h3, List.countP_cons, hacc]
          simp [List.replicate_succ, List.append_assoc]
        · rw [h4, List.countP_cons, hacc]
          simp
          omega

/-- One main-loop iteration appends exactly `survivingRegionCount` planes
and that many copies of the polygon's index. -/
theorem processPolygon_ok_indices (cfg : Config) (ops : GeomOps)
    (points : List Pt) (rm : Option Mat3) (st : St) (i : ℕ)
    (poly : PolygonBoundary) (st' : St)
    (h : processPolygon cfg ops points rm st (i, poly) = Except.ok st') :
    st'.planes_indices = st.planes_indices ++
      List.replicate (survivingRegionCount cfg ops points rm poly) i ∧
    st'.planes.length = st.planes.length +
      survivingRegionCount cfg ops points rm poly := by
  unfold processPolygon at h
  unfold survivingRegionCount
  split at h
  next hskip =>
    have h' : Except.ok st = Except.ok st' := h
    injection h' with h'
    subst h'
    rw [if_pos hskip]
    simp
  next hskip =>
    rw [if_neg hskip]
    split at h
    next hh => simp at h
    next p0 hh =>
      split at h
      next hg => simp at h
      next z2 hg =>
        have hfold := foldRegions_ok cfg ops _ _ _ _ _ _ h
        simpa using hfold

/-- A successful `Except` fold preserves any invariant preserved by each
successful step. -/
theorem foldlM_except_invariant {α β : Type} (P : β → Prop)
    (f : β → α → Except String β) :
    ∀ (l : List α) (st st' : β), l.foldlM f st = Except.ok st' → P st →
      (∀ a ∈ l, ∀ s s', P s → f s a = Except.ok s' → P s') → P st' := by
  intro l
  induction l with
  | nil =>
    intro st st' h hP _
    simp only [List.foldlM_nil] at h
    have h' : Except.ok st = Except.ok st' := h
    injection h' with h'
    subst h'
    exact hP
  | cons a rest ih =>
    intro st st' h hP hstep
    simp only [List.foldlM_cons] at h
    cases hr : f st a with
    | error e => rw [hr, except_bind_error] at h; simp at h
    | ok st1 =>
      rw [hr, except_bind_ok] at h
      exact ih st1 st' h (hstep a (List.mem_cons_self a rest) st st1 hP hr)
        (fun b hb => hstep b (List.mem_cons_of_mem a hb))

/-- Indices produced by `enumFrom` are bounded by the start plus length. -/
theorem mem_enumFrom_fst_lt {α : Type} :
    ∀ (l : List α) (n : ℕ) (pr : ℕ × α), pr ∈ l.enumFrom n →
      pr.1 < n + l.length := by
  intro l
  induction l with
  | nil => intro n pr h; simp [List.enumFrom] at h
  | cons a rest ih =>
    intro n pr h
    simp only [List.enumFrom, List.mem_cons] at h
    rcases h with rfl | h'
    · simp
    · have := ih (n + 1) pr h'
      simp only [List.length_cons]
      omega

/-- The element of an `enumFrom` pair is an element of the list. -/
theorem mem_enumFrom_snd_mem {α : Type} :
    ∀ (l : List α) (n : ℕ) (pr : ℕ × α), pr ∈ l.enumFrom n → pr.2 ∈ l := by
  intro l
  induction l with
  | nil => intro n pr h; simp [List.enumFrom] at h
  | cons a rest ih =>
    intro n pr h
    simp only [List.enumFrom, List.mem_cons] at h
    rcases h with rfl | h'
    · simp
    · exact List.mem_cons_of_mem a (ih (n + 1) pr h')

/-- The main loop appends, for each raw polygon in order, one block of
`survivingRegionCount` copies of that polygon's index, and the same number
of planes. -/
theorem foldPolys_ok_indices (cfg : Config) (ops : GeomOps) (points : List Pt)
    (rm : Option Mat3) :
    ∀ (l : List PolygonBoundary) (n : ℕ) (st st' : St),
      (l.enumFrom n).foldlM (processPolygon cfg ops points rm) st
        = Except.ok st' →
      st'.planes_indices = st.planes_indices ++
        ((l.enumFrom n).map (fun pr =>
          List.replicate (survivingRegionCount cfg ops points rm pr.2) pr.1)).flatten ∧
      st'.planes.length = st.planes.length +
        (((l.enumFrom n).map (fun pr =>
          List.replicate (survivingRegionCount cfg ops points rm pr.2) pr.1)).flatten).length := by
  intro l
  induction l with
  | nil =>
    intro n st st' h
    simp only [List.enumFrom, List.foldlM_nil] at h
    have h' : Except.ok st = Except.ok st' := h
    injection h' with h'
    subst h'
    simp
  | cons poly rest ih =>
    intro n st st' h
    simp only [List.enumFrom, List.foldlM_cons] at h
    cases hr : processPolygon cfg ops points rm st (n, poly) with
    | error e => rw [hr, except_bind_error] at h; simp at h
    | ok st1 =>
      rw [hr, except_bind_ok] at h
      obtain ⟨h1, h2⟩ := processPolygon_ok_indices cfg ops points rm st n poly st1 hr
      obtain ⟨h3, h4⟩ := ih (n + 1) st1 st' h
      simp only [List.enumFrom_cons, List.map_cons, List.flatten_cons]
      constructor
      · rw [h3, h1, List.append_assoc]
      · rw [h4, h2]
        simp only [List.length_append, List.length_replicate]
        omega

/-- For an orthonormal rotation matrix, applying the transpose after the
matrix is the identity on every coordinate row. -/
theorem Mat3.applyPt_transpose_applyPt (m : Mat3)
    (h : Mat3.mul (Mat3.transpose m) m = Mat3.identity) (p : Pt) :
    Mat3.applyPt (Mat3.transpose m) (Mat3.applyPt m p) = p := by
  have h11 : m.m11 * m.m11 + m.m21 * m.m21 + m.m31 * m.m31 = 1 := by
    have := congrArg Mat3.m11 h
    simpa [Mat3.mul, Mat3.transpose, Mat3.identity] using this
  have h12 : m.m11 * m.m12 + m.m21 * m.m22 + m.m31 * m.m32 = 0 := by
    have := congrArg Mat3.m12 h
    simpa [Mat3.mul, Mat3.transpose, Mat3.identity] using this
  have h13 : m.m11 * m.m13 + m.m21 * m.m23 + m.m31 * m.m33 = 0 := by
    have := congrArg Mat3.m13 h
    simpa [Mat3.mul, Mat3.transpose, Mat3.identity] using this
  have h21 : m.m12 * m.m11 + m.m22 * m.m21 + m.m32 * m.m31 = 0 := by
    have := congrArg Mat3.m21 h
    simpa [Mat3.mul, Mat3.transpose, Mat3.identity] using this
  have h22 : m.m12 * m.m12 + m.m22 * m.m22 + m.m32 * m.m32 = 1 := by
    have := congrArg Mat3.m22 h
    simpa [Mat3.mul, Mat3.transpose, Mat3.identity] using this
  have h23 : m.m12 * m.m13 + m.m22 * m.m23 + m.m32 * m.m33 = 0 := by
    have := congrArg Mat3.m23 h
    simpa [Mat3.mul, Mat3.transpose, Mat3.identity] using this
  have h31 : m.m13 * m.m11 + m.m23 * m.m21 + m.m33 * m.m31 = 0 := by
    have := congrArg Mat3.m31 h
    simpa [Mat3.mul, Mat3.transpose, Mat3.identity] using this
  have h32 : m.m13 * m.m12 + m.m23 * m.m22 + m.m33 * m.m32 = 0 := by
    have := congrArg Mat3.m32 h
    simpa [Mat3.mul, Mat3.transpose, Mat3.identity] using this
  have h33 : m.m13 * m.m13 + m.m23 * m.m23 + m.m33 * m.m33 = 1 := by
    have := congrArg Mat3.m33 h
    simpa [Mat3.mul, Mat3.transpose, Mat3.identity] using this
  match p with
  | [] => rfl
  | [x] => rfl
  | [x, y] => rfl
  | x :: y :: z :: w :: rest => rfl
  | [x, y, z] =>
    simp only [Mat3.applyPt, Mat3.transpose, List.cons.injEq, and_true]
    refine ⟨?_, ?_, ?_⟩
    · linear_combination x * h11 + y * h12 + z * h13
    · linear_combination x * h21 + y * h22 + z * h23
    · linear_combination x * h31 + y * h32 + z * h33

/-- For an orthonormal rotation matrix, applying the transpose after the
matrix is the identity on a whole coordinate array. -/
theorem Mat3.applyPts_transpose_applyPts (m : Mat3)
    (h : Mat3.mul (Mat3.transpose m) m = Mat3.identity) (ps : List Pt) :
    Mat3.applyPts (Mat3.transpose m) (Mat3.applyPts m ps) = ps := by
  induction ps with
  | nil => rfl
  | cons p rest ih =>
    simp only [Mat3.applyPts, List.map_cons] at ih ⊢
    rw [Mat3.applyPt_transpose_applyPt m h p, ih]

/-- With simplify and both buffers disabled, the normalization chain is
the identity: a single-element candidate list with the input unchanged. -/
theorem normalizeGeom_id (cfg : Config) (ops : GeomOps) (p : Poly)
    (hs : cfg.simplify = 0) (hp : cfg.positive_buffer = 0)
    (hn : cfg.negative_buffer = 0) :
    normalizeGeom cfg ops p = [p] := by
  unfold normalizeGeom
  rw [hs, hp, hn]
  simp

/-- With simplify and both buffers disabled, the conditional 3-D recovery
never fires. -/
theorem recoveredRegion_zero (cfg : Config) (ops : GeomOps) (sc : List Pt)
    (hc : List (List Pt)) (z : ℚ) (r : Poly) (hs : cfg.simplify = 0)
    (hp : cfg.positive_buffer = 0) (hn : cfg.negative_buffer = 0) :
    recoveredRegion cfg ops sc hc z r = r := by
  unfold recoveredRegion
  rw [hs, hp, hn]
  simp

/-- One region step preserves the invariant that every accumulated plane
polygon has an empty interior-ring list. -/
theorem processRegion_planes_noholes (cfg : Config) (ops : GeomOps)
    (sc : List Pt) (hc : List (List Pt)) (i : ℕ) (st st' : St) (r : Poly)
    (h : processRegion cfg ops sc hc i st r = Except.ok st')
    (hinv : ∀ pz ∈ st.planes, pz.1.holes = []) :
    ∀ pz ∈ st'.planes, pz.1.holes = [] := by
  rcases processRegion_ok_cases cfg ops sc hc i st r st' h with
    ⟨_, rfl⟩ | ⟨_, q, z2, _, rfl⟩
  · exact hinv
  · intro pz hmem
    rcases List.mem_append.mp hmem with h' | h'
    · exact hinv pz h'
    · rw [List.mem_singleton] at h'
      rw [h']

/-- One main-loop step preserves the invariant that every accumulated
plane polygon has an empty interior-ring list. -/
theorem processPolygon_planes_noholes (cfg : Config) (ops : GeomOps)
    (points : List Pt) (rm : Option Mat3) (st st' : St)
    (pr : ℕ × PolygonBoundary)
    (h : processPolygon cfg ops points rm st pr = Except.ok st')
    (hinv : ∀ pz ∈ st.planes, pz.1.holes = []) :
    ∀ pz ∈ st'.planes, pz.1.holes = [] := by
  unfold processPolygon at h
  split at h
  next =>
    have h' : Except.ok st = Except.ok st' := h
    injection h' with h'
    subst h'
    exact hinv
  next =>
    split at h
    next => simp at h
    next p0 hh =>
      split at h
      next => simp at h
      next z2 hg =>
        exact foldlM_except_invariant (fun s => ∀ pz ∈ s.planes, pz.1.holes = [])
          _ _ _ _ h hinv
          (fun r _ s s' hP hstep =>
            processRegion_planes_noholes cfg ops _ _ _ s s' r hstep hP)

/-- One main-loop step under a disabled normalizer and a supplied rotation
preserves the invariant that every accumulated plane shell is the rotation
of some raw polygon's resolved shell coordinates, and every accumulated
obstacle shell is the rotation of some raw polygon's resolved hole
coordinates. -/
theorem processPolygon_zero_rot_mem (cfg : Config) (ops : GeomOps)
    (points : List Pt) (m : Mat3) (polys : List PolygonBoundary)
    (hs : cfg.simplify = 0) (hp : cfg.positive_buffer = 0)
    (hn : cfg.negative_buffer = 0) (pr : ℕ × PolygonBoundary)
    (hpr : pr.2 ∈ polys) (st st' : St)
    (h : processPolygon cfg ops points (some m) st pr = Except.ok st')
    (hinv1 : ∀ pz ∈ st.planes, ∃ pb ∈ polys,
      pz.1.shell = Mat3.applyPts m (get_points pb.shell points))
    (hinv2 : ∀ oz ∈ st.obstacles, ∃ pb ∈ polys, ∃ hl ∈ pb.holes,
      oz.1.shell = Mat3.applyPts m (get_points hl points)) :
    (∀ pz ∈ st'.planes, ∃ pb ∈ polys,
      pz.1.shell = Mat3.applyPts m (get_points pb.shell points)) ∧
    (∀ oz ∈ st'.obstacles, ∃ pb ∈ polys, ∃ hl ∈ pb.holes,
      oz.1.shell = Mat3.applyPts m (get_points hl points)) := by
  unfold processPolygon at h
  split at h
  next =>
    have h' : Except.ok st = Except.ok st' := h
    injection h' with h'
    subst h'
    exact ⟨hinv1, hinv2⟩
  next =>
    split at h
    next => simp at h
    next p0 hh =>
      split at h
      next => simp at h
      next z2 hg =>
        rw [normalizeGeom_id cfg ops _ hs hp hn] at h
        simp only [List.foldlM_cons, List.foldlM_nil, bind_pure] at h
        rcases processRegion_ok_cases cfg ops _ _ _ _ _ _ h with
          ⟨_, hst⟩ | ⟨_, q, zq, hq, hst⟩
        · subst hst
          exact ⟨hinv1, hinv2⟩
        · rw [recoveredRegion_zero cfg ops _ _ _ _ hs hp hn] at hq hst
          subst hst
          constructor
          · intro pz hmem
            rcases List.mem_append.mp hmem with h' | h'
            · exact hinv1 pz h'
            · rw [List.mem_singleton] at h'
              refine ⟨pr.2, hpr, ?_⟩
              rw [h']
              rfl
          · intro oz hmem
            rcases processHoles_ok_mem cfg.filter ops _ _ _ _ hq oz hmem with
              h' | ⟨hl, hhl, hoz⟩
            · exact hinv2 oz h'
            · have hhl' : hl ∈ (initialShape points (some m) pr.2).holes := hhl
              rcases List.mem_map.mp hhl' with ⟨h0, hh0, hform⟩
              exact ⟨pr.2, hpr, h0, hh0, by rw [hoz, ← hform]⟩

/-- The epilogue never changes the index list. -/
theorem invertOutput_indices (rm : Option Mat3) (st : St) :
    (invertOutput rm st).2.2 = st.planes_indices := by
  cases rm <;> rfl

/-- The epilogue never changes the number of planes. -/
theorem invertOutput_planes_length (rm : Option Mat3) (st : St) :
    (invertOutput rm st).1.length = st.planes.length := by
  cases rm <;> simp [invertOutput]

/-- Claim C1: for every hole of an accepted plane region, an obstacle
record appears in the obstacles list iff the number of the hole's
coordinates is strictly greater than `hole_vertices.min` and
(`hole_area.min <= 0` or `hole_area.min <= area(hole) < hole_area.max`);
rejected holes produce no obstacle entry. -/
theorem C1_obstacle_admission (pf : FilterCfg) (ops : GeomOps)
    (holes : List (List Pt)) (obs : List (Poly × ℚ)) (z : ℚ)
    (res : List (Poly × ℚ) × ℚ)
    (h : processHoles pf ops holes obs z = Except.ok res) :
    res.1 = obs ++ holes.filterMap
      (fun hl => if holeAdmitted pf ops hl then obstacleRecord hl else none) ∧
    ∀ hl ∈ holes, holeAdmitted pf ops hl → (obstacleRecord hl).isSome :=
  ⟨processHoles_ok_obstacles pf ops holes obs z res h,
   processHoles_ok_isSome pf ops holes obs z res h⟩

/-- Witness for C1: the concrete hole list `holesW` under `pfW` admits
exactly its first ring. -/
theorem C1_obstacle_admission_witness :
    resHW.1 = [] ++ holesW.filterMap
      (fun hl => if holeAdmitted pfW opsTriv hl then obstacleRecord hl else none) :=
  (C1_obstacle_admission pfW opsTriv holesW [] 0 resHW rfl).1

/-- Claim C2: when `plane_area.min` is positive, a plane entry is appended
only if the region's area is at least the threshold, both at the early
check (which skips the polygon, leaving the state unchanged) and at the
per-region check; when the threshold is zero, the per-region area filter
accepts every region. -/
theorem C2_plane_area_threshold (cfg : Config) (ops : GeomOps)
    (points : List Pt) (rm : Option Mat3) :
    (∀ (st : St) (i : ℕ) (poly : PolygonBoundary),
      cfg.filter.plane_area_min ≠ 0 →
      ops.areaFn (initialShape points rm poly) < cfg.filter.plane_area_min →
      processPolygon cfg ops points rm st (i, poly) = Except.ok st) ∧
    (∀ (sc : List Pt) (hc : List (List Pt)) (i : ℕ) (st st' : St) (r : Poly),
      processRegion cfg ops sc hc i st r = Except.ok st' →
      (0 < cfg.filter.plane_area_min →
        (ops.areaFn r ≥ cfg.filter.plane_area_min →
          st'.planes.length = st.planes.length + 1) ∧
        (ops.areaFn r < cfg.filter.plane_area_min → st' = st)) ∧
      (cfg.filter.plane_area_min = 0 →
        st'.planes.length = st.planes.length + 1)) := by
  constructor
  · intro st i poly h1 h2
    unfold processPolygon
    rw [if_pos ⟨h1, h2⟩]
  · intro sc hc i st st' r h
    rcases processRegion_ok_cases cfg ops sc hc i st r st' h with
      ⟨hacc, rfl⟩ | ⟨hacc, q, z2, _, rfl⟩
    · have hrej : ¬ (cfg.filter.plane_area_min ≤ 0 ∨
          ops.areaFn r ≥ cfg.filter.plane_area_min) := by
        intro hc'
        rw [regionAccepted, decide_eq_true hc'] at hacc
        exact Bool.noConfusion hacc
      push_neg at hrej
      constructor
      · intro _
        exact ⟨fun hge => absurd hrej.2 (not_lt.mpr hge), fun _ => rfl⟩
      · intro h0
        rw [h0] at hrej
        exact absurd hrej.1 (lt_irrefl 0)
    · constructor
      · intro hpos
        constructor
        · intro _
          simp
        · intro hlt
          exfalso
          rw [regionAccepted] at hacc
          rcases of_decide_eq_true hacc with hle | hge
          · exact absurd hpos (not_lt.mpr hle)
          · exact absurd hge (not_le.mpr hlt)
      · intro _
        simp

/-- Witness for C2: under `cfgPA` (threshold 1) and constant area 0, the
early check skips the polygon and leaves the state unchanged. -/
theorem C2_plane_area_threshold_witness :
    processPolygon cfgPA opsTriv pointsW none stW (0, ⟨[0, 1, 2], []⟩)
      = Except.ok stW :=
  (C2_plane_area_threshold cfgPA opsTriv pointsW none).1 stW 0
    ⟨[0, 1, 2], []⟩ (by decide) (by decide)

/-- Claim C3, behaviour of the code at the failing input: negative
buffering splits the raw polygon (whose first shell vertex has z-value 5)
into two surviving regions; the first region's hole (z-value 99) is
admitted as an obstacle, and the second region's plane is then recorded
with z-value 99 instead of 5. -/
theorem C3_z_value_leak :
    filter_planes_and_holes opsSplit polysW pointsW cfgNegBuf none =
      Except.ok
        ([(⟨[[0, 0, 5], [1, 0, 5], [1, 1, 5]], []⟩, 5),
          (⟨[[2, 2, 5], [3, 2, 5], [3, 3, 5]], []⟩, 99)],
         [(⟨[[9, 9, 99], [9, 8, 99]], []⟩, 99)], [0, 0]) ∧
    (pointsW.getD 0 []).getD 2 0 = 5 ∧ (99 : ℚ) ≠ 5 :=
  ⟨rfl, rfl, by decide⟩

/-- Claim C4, behaviour of the code at the failing input: with only
simplification enabled and a candidate region whose exterior coordinates
are still 3-dimensional, the precedence-broken condition still invokes
3-D recovery, visible through the marker recovery replacing the shell. -/
theorem C4_recovery_condition :
    dimOf (initialShape pointsW none ⟨[0, 1, 2], []⟩) = 3 ∧
    cfgSimplifyOnly.positive_buffer = 0 ∧
    cfgSimplifyOnly.negative_buffer = 0 ∧
    cfgSimplifyOnly.simplify ≠ 0 ∧
    filter_planes_and_holes opsMarker polysW pointsW cfgSimplifyOnly none =
      Except.ok ([(⟨[[7, 7, 7]], []⟩, 5)], [], [0]) :=
  ⟨rfl, rfl, rfl, by decide, rfl⟩

/-- Claim C5: `planes_indices` has the same length as `planes`, every
entry is a valid index into the raw polygon list, and the list is, for
each raw polygon in order, one block with its index repeated once per
surviving region. -/
theorem C5_index_fidelity (ops : GeomOps) (cfg : Config)
    (polys : List PolygonBoundary) (points : List Pt) (rm : Option Mat3)
    (res : List (Poly × ℚ) × List (Poly × ℚ) × List ℕ)
    (h : filter_planes_and_holes ops polys points cfg rm = Except.ok res) :
    res.2.2.length = res.1.length ∧
    (∀ i ∈ res.2.2, i < polys.length) ∧
    res.2.2 = (polys.enum.map (fun pr =>
      List.replicate (survivingRegionCount cfg ops points rm pr.2) pr.1)).flatten := by
  unfold filter_planes_and_holes at h
  split at h
  next => simp at h
  next st heq =>
    injection h with h
    subst h
    have henum : polys.enum = polys.enumFrom 0 := rfl
    rw [henum] at heq
    obtain ⟨h1, h2⟩ := foldPolys_ok_indices cfg ops points rm polys 0 _ st heq
    simp only [List.nil_append] at h1
    refine ⟨?_, ?_, ?_⟩
    · rw [invertOutput_indices, invertOutput_planes_length, h1, h2]
      simp
    · intro i hi
      rw [invertOutput_indices, h1] at hi
      rcases List.mem_flatten.mp hi with ⟨block, hblock, hiblock⟩
      rcases List.mem_map.mp hblock with ⟨pr, hpr, rfl⟩
      have := mem_enumFrom_fst_lt polys 0 pr hpr
      have heqi := List.eq_of_mem_replicate hiblock
      omega
    · rw [invertOutput_indices, h1, henum]

/-- Witness for C5 at the concrete run on `polysW`. -/
theorem C5_index_fidelity_witness :
    resW.2.2.length = resW.1.length ∧
    resW.2.2 = (polysW.enum.map (fun pr =>
      List.replicate (survivingRegionCount cfgW opsTriv pointsW none pr.2) pr.1)).flatten :=
  ⟨(C5_index_fidelity opsTriv cfgW polysW pointsW none resW rfl).1,
   (C5_index_fidelity opsTriv cfgW polysW pointsW none resW rfl).2.2⟩

/-- Claim C6 counterexample: with `plane_area.min = 0`, a raw polygon with
an empty shell makes the whole call raise an IndexError instead of being
skipped, losing the remaining polygon's results. -/
theorem C6_empty_shell_counterexample :
    filter_planes_and_holes opsTriv [⟨[], []⟩, ⟨[0, 1, 2], []⟩] pointsW cfgW none
      = Except.error "IndexError" := rfl

/-- Claim C6 amended: an empty-shell polygon is skipped (state unchanged,
remaining polygons unaffected) only through the early area check, i.e.
when `plane_area.min` is nonzero and the polygon's area is below it; when
`plane_area.min = 0`, the iteration fails with an IndexError at the read
of the first shell vertex. -/
theorem C6_empty_shell (cfg : Config) (ops : GeomOps) (points : List Pt)
    (rm : Option Mat3) (st : St) (i : ℕ) (poly : PolygonBoundary)
    (hEmpty : poly.shell = []) :
    (cfg.filter.plane_area_min ≠ 0 →
      ops.areaFn (initialShape points rm poly) < cfg.filter.plane_area_min →
      processPolygon cfg ops points rm st (i, poly) = Except.ok st) ∧
    (cfg.filter.plane_area_min = 0 →
      processPolygon cfg ops points rm st (i, poly) = Except.error "IndexError") := by
  constructor
  · intro h1 h2
    unfold processPolygon
    rw [if_pos ⟨h1, h2⟩]
  · intro h0
    unfold processPolygon
    rw [if_neg (by simp [h0])]
    have hsc : initialShellCoords points rm poly = [] := by
      unfold initialShellCoords
      cases rm <;> simp [hEmpty, get_points, Mat3.applyPts]
    simp [hsc]

/-- Witness for C6 at a concrete empty-shell polygon with
`plane_area.min = 0`. -/
theorem C6_empty_shell_witness :
    processPolygon cfgW opsTriv pointsW none stW (0, ⟨[], []⟩)
      = Except.error "IndexError" :=
  (C6_empty_shell cfgW opsTriv pointsW none stW 0 ⟨[], []⟩ rfl).2 rfl

/-- Claim C7: with `simplify == 0`, `positive_buffer == 0` and
`negative_buffer == 0`, the normalization stage is the identity: the
working polygon reaches the filtering stage unchanged, as a
single-element candidate list with the same vertex ordering. -/
theorem C7_normalizer_identity (cfg : Config) (ops : GeomOps) (p : Poly)
    (hs : cfg.simplify = 0) (hp : cfg.positive_buffer = 0)
    (hn : cfg.negative_buffer = 0) :
    normalizeGeom cfg ops p = [p] :=
  normalizeGeom_id cfg ops p hs hp hn

/-- Witness for C7 at a concrete polygon under `cfgW`. -/
theorem C7_normalizer_identity_witness :
    normalizeGeom cfgW opsTriv ⟨[[0, 0, 5]], []⟩ = [⟨[[0, 0, 5]], []⟩] :=
  C7_normalizer_identity cfgW opsTriv ⟨[[0, 0, 5]], []⟩ rfl rfl rfl

/-- Claim C8: with an orthonormal rotation supplied and no buffering or
simplification, every returned plane's vertices equal the resolved shell
coordinates of one of the raw polygons, and every returned obstacle's
vertices equal the resolved coordinates of one of the raw polygons'
holes — the rotation round trip recovers the original 3-D vertices
exactly (hence within any tolerance). -/
theorem C8_rotation_roundtrip (ops : GeomOps) (cfg : Config)
    (polys : List PolygonBoundary) (points : List Pt) (m : Mat3)
    (res : List (Poly × ℚ) × List (Poly × ℚ) × List ℕ)
    (hOrtho : Mat3.mul (Mat3.transpose m) m = Mat3.identity)
    (hs : cfg.simplify = 0) (hp : cfg.positive_buffer = 0)
    (hn : cfg.negative_buffer = 0)
    (h : filter_planes_and_holes ops polys points cfg (some m) = Except.ok res) :
    (∀ pz ∈ res.1, ∃ pb ∈ polys, pz.1.shell = get_points pb.shell points) ∧
    (∀ oz ∈ res.2.1, ∃ pb ∈ polys, ∃ hl ∈ pb.holes,
      oz.1.shell = get_points hl points) := by
  unfold filter_planes_and_holes at h
  split at h
  next => simp at h
  next st heq =>
    injection h with h
    subst h
    have hinv := foldlM_except_invariant
      (fun s => (∀ pz ∈ s.planes, ∃ pb ∈ polys,
          pz.1.shell = Mat3.applyPts m (get_points pb.shell points)) ∧
        (∀ oz ∈ s.obstacles, ∃ pb ∈ polys, ∃ hl ∈ pb.holes,
          oz.1.shell = Mat3.applyPts m (get_points hl points)))
      (processPolygon cfg ops points (some m)) polys.enum _ st heq
      ⟨fun pz hpz => absurd hpz (List.not_mem_nil pz),
       fun oz hoz => absurd hoz (List.not_mem_nil oz)⟩
      (fun pr hpr s s' hP hstep =>
        processPolygon_zero_rot_mem cfg ops points m polys hs hp hn pr
          (mem_enumFrom_snd_mem polys 0 pr hpr) s s' hstep hP.1 hP.2)
    constructor
    · intro pz hmem
      simp only [invertOutput] at hmem
      rcases List.mem_map.mp hmem with ⟨pz0, hpz0, rfl⟩
      rcases hinv.1 pz0 hpz0 with ⟨pb, hpb, hshell⟩
      refine ⟨pb, hpb, ?_⟩
      show Mat3.applyPts (Mat3.transpose m) pz0.1.shell = _
      rw [hshell, Mat3.applyPts_transpose_applyPts m hOrtho]
    · intro oz hmem
      simp only [invertOutput] at hmem
      rcases List.mem_map.mp hmem with ⟨oz0, hoz0, rfl⟩
      rcases hinv.2 oz0 hoz0 with ⟨pb, hpb, hl, hhl, hshell⟩
      refine ⟨pb, hpb, hl, hhl, ?_⟩
      show Mat3.applyPts (Mat3.transpose m) oz0.1.shell = _
      rw [hshell, Mat3.applyPts_transpose_applyPts m hOrtho]

/-- The concrete run with the ninety-degree rotation recovers the original
vertices exactly. -/
theorem filter_rot90_run :
    filter_planes_and_holes opsTriv polysW pointsW cfgW (some rot90)
      = Except.ok resW := by
  norm_num [filter_planes_and_holes, invertOutput, processPolygon, processRegion,
    processHoles, normalizeGeom, recoveredRegion, initialShape, initialShellCoords,
    initialHoleCoords, get_points, dimOf, opsTriv, polysW, pointsW, cfgW, resW,
    stW, rot90, Mat3.applyPts, Mat3.applyPt, Mat3.transpose, List.enum,
    List.enumFrom, List.foldlM_cons, List.foldlM_nil, except_bind_ok,
    except_bind_error]

/-- Witness for C8 at the concrete orthonormal rotation `rot90`: the one
returned plane's shell equals the resolved shell of some raw polygon. -/
theorem C8_rotation_roundtrip_witness :
    ∃ pb ∈ polysW,
      ((⟨[[0, 0, 5], [1, 0, 5], [1, 1, 5]], []⟩ : Poly), (5 : ℚ)).1.shell
        = get_points pb.shell pointsW :=
  (C8_rotation_roundtrip opsTriv cfgW polysW pointsW rot90 resW
    (by norm_num [Mat3.mul, Mat3.transpose, Mat3.identity, rot90]) rfl rfl rfl
    filter_rot90_run).1 (⟨[[0, 0, 5], [1, 0, 5], [1, 1, 5]], []⟩, 5) (by decide)

/-- Claim C9: every polygon in the returned planes list consists of an
exterior ring only — its interior-ring list is always empty. -/
theorem C9_planes_exterior_only (ops : GeomOps) (cfg : Config)
    (polys : List PolygonBoundary) (points : List Pt) (rm : Option Mat3)
    (res : List (Poly × ℚ) × List (Poly × ℚ) × List ℕ)
    (h : filter_planes_and_holes ops polys points cfg rm = Except.ok res) :
    ∀ pz ∈ res.1, pz.1.holes = [] := by
  unfold filter_planes_and_holes at h
  split at h
  next => simp at h
  next st heq =>
    injection h with h
    subst h
    have hst : ∀ pz ∈ st.planes, pz.1.holes = [] :=
      foldlM_except_invariant (fun s => ∀ pz ∈ s.planes, pz.1.holes = [])
        (processPolygon cfg ops points rm) polys.enum _ st heq
        (fun pz hpz => absurd hpz (List.not_mem_nil pz))
        (fun pr _ s s' hP hstep =>
          processPolygon_planes_noholes cfg ops points rm s s' pr hstep hP)
    cases rm with
    | none => exact hst
    | some m =>
      intro pz hmem
      simp only [invertOutput] at hmem
      rcases List.mem_map.mp hmem with ⟨pz0, _, rfl⟩
      rfl

/-- Witness for C9 at the concrete run on `polysW`: the one returned
plane's interior-ring list is empty. -/
theorem C9_planes_exterior_only_witness :
    ((⟨[[0, 0, 5], [1, 0, 5], [1, 1, 5]], []⟩ : Poly), (5 : ℚ)).1.holes = [] :=
  C9_planes_exterior_only opsTriv cfgW polysW pointsW none resW rfl
    (⟨[[0, 0, 5], [1, 0, 5], [1, 1, 5]], []⟩, 5) (by decide)

end SurfaceDetector
